import Mathlib

/-!
Verification development for the CNC image-to-toolpath pipeline
(`project_cnc.py`).  The core stages of `CNCMachine` are embedded
shallowly: `edge_detection`, `extract_contours`, `scale_coordinates`,
`draw_toolpath` and `generate_from_image`.  Floating-point arithmetic is
embedded as exact rational arithmetic; exceptions are embedded with
`Except`; the stateful turtle "tool" is embedded as explicit state
passing over a `ToolState` record.  The OpenCV library calls the code
makes (`cv2.Canny`, `cv2.findContours`, `cv2.contourArea`) are external
to the repository and are modelled from the specification, as documented
on their definitions.
-/

namespace CNC

/-- Pixel-space point, as in an OpenCV contour: `(x, y)` integer coordinates. -/
abbrev PixPoint := ℤ × ℤ

/-- A traced contour: ordered sequence of pixel points. -/
abbrev Contour := List PixPoint

/-- Canvas-space point (turtle coordinates), embedded as exact rationals. -/
abbrev Point := ℚ × ℚ

/-- A scaled contour in canvas coordinates. -/
abbrev ScaledContour := List Point

/-- Binary edge map: rows of pixel values, nonzero means edge. -/
abbrev EdgeMap := List (List ℕ)

/-- A decoded grayscale image: rows of intensities.  `cv2.imread` output is
BGR and the grayscale conversion is an external `cv2` call, so the image is
modelled directly at the grayscale level. -/
abbrev Img := List (List ℕ)

def msgLoad : String := "Could not load image"

def msgZeroDiv : String := "division by zero"

def msgIndex : String := "list index out of range"

def colorRed : String := "red"

def colorBlue : String := "blue"

/-! ### Modelled external edge detection (`cv2` chain in `edge_detection`) -/

/-- Absolute difference of two natural numbers. -/
def absDiff (a b : ℕ) : ℕ := max a b - min a b

/-- Pixel lookup with a default for out-of-bounds coordinates. -/
def pxD (img : Img) (y x d : ℕ) : ℕ := (img.getD y []).getD x d

/-- Whether the forward-difference gradient at `(y, x)` reaches threshold `t`.
Out-of-bounds neighbours default to the centre value, so they contribute no
gradient. -/
def gradHit (img : Img) (t y x : ℕ) : Bool :=
  let c := pxD img y x 0
  decide (t ≤ absDiff (pxD img y (x + 1) c) c) ||
    decide (t ≤ absDiff (pxD img (y + 1) x c) c)

/-- Strong edge: gradient reaches the high threshold. -/
def strongAt (img : Img) (t2 y x : ℕ) : Bool := gradHit img t2 y x

/-- The eight neighbours of a pixel (clipped at zero by `ℕ` subtraction). -/
def neighbors (y x : ℕ) : List (ℕ × ℕ) :=
  [(y - 1, x - 1), (y - 1, x), (y - 1, x + 1), (y, x - 1),
   (y, x + 1), (y + 1, x - 1), (y + 1, x), (y + 1, x + 1)]

/-- Edge decision with the two Canny thresholds: strong edges are kept, weak
edges (low threshold) are kept when a neighbour is strong. -/
def isEdgePix (img : Img) (t1 t2 y x : ℕ) : Bool :=
  strongAt img t2 y x ||
    (gradHit img t1 y x && (neighbors y x).any fun q => strongAt img t2 q.1 q.2)

/-- Modelled from the spec: the `cv2.cvtColor` / `cv2.GaussianBlur` /
`cv2.Canny` chain called by `edge_detection` is external library code.  The
spec (section 4.2 of the algorithm description) requires a two-threshold
gradient edge detector producing a binary mask; it is modelled here as a
forward-difference gradient test with strong edges at `t2`, weak edges at
`t1` promoted by an adjacent strong edge (one-step hysteresis).  Only the
properties the claims rely on are used: the map is a pure function of the
image, and a gradient-free image yields an all-zero map. -/
def cannyModel (img : Img) (t1 t2 : ℕ) : EdgeMap :=
  (List.range img.length).map fun y =>
    (List.range (img.headD []).length).map fun x =>
      if isEdgePix img t1 t2 y x then 255 else 0

/-- `edge_detection`: loads the image (`cv2.imread` yields `none` when the
file cannot be decoded), raises `ValueError` on `none`, otherwise returns the
edge map together with the image shape `(h, w)`. -/
def edge_detection (imgOpt : Option Img) (t1 t2 : ℕ) :
    Except String (EdgeMap × ℕ × ℕ) :=
  match imgOpt with
  | none => Except.error msgLoad
  | some img => Except.ok (cannyModel img t1 t2, img.length, (img.headD []).length)

/-! ### Modelled external contour discovery (`cv2.findContours`) -/

/-- Edge pixels of one row, as `(x, y)` points, in column order. -/
def rowPixels (y : ℕ) (row : List ℕ) : List PixPoint :=
  row.enum.filterMap fun q =>
    if q.2 = 0 then none else some ((q.1 : ℤ), (y : ℤ))

/-- All edge pixels of an edge map in row-major scan order. -/
def edgePixels (em : EdgeMap) : List PixPoint :=
  (em.enum.map fun r => rowPixels r.1 r.2).flatten

/-- Eight-connectivity of pixel coordinates. -/
def adjacent8 (p q : PixPoint) : Bool :=
  decide (p ≠ q) && decide ((p.1 - q.1).natAbs ≤ 1) &&
    decide ((p.2 - q.2).natAbs ≤ 1)

/-- Grow a connected component from `comp` by absorbing adjacent pending
pixels; fuel-bounded. -/
def grow : ℕ → List PixPoint → List PixPoint → List PixPoint × List PixPoint
  | 0, comp, rest => (comp, rest)
  | fuel + 1, comp, rest =>
    let nw := rest.filter fun q => comp.any fun p => adjacent8 p q
    if nw = [] then (comp, rest)
    else grow fuel (comp ++ nw) (rest.filter fun q => !(comp.any fun p => adjacent8 p q))

/-- Split a pixel list into connected components, fuel-bounded. -/
def componentsAux : ℕ → List PixPoint → List Contour
  | 0, _ => []
  | _, [] => []
  | fuel + 1, p :: rest =>
    let pr := grow (fuel + 1) [p] rest
    pr.1 :: componentsAux fuel pr.2

/-- Modelled from the spec: `cv2.findContours` is an external library call.
The spec describes the tracer as producing one Contour per maximal connected
edge region of the binary mask, returned as a flat list; it is modelled as
the 8-connected components of the edge pixels collected in scan order, each
component listed as one contour.  The tracer is a total function and an
edge-free map yields the empty list. -/
def findContours (em : EdgeMap) : List Contour :=
  componentsAux (edgePixels em).length (edgePixels em)

/-! ### Contour area (`cv2.contourArea`) and the area-descending sort -/

/-- Cross product term of the shoelace formula. -/
def cross (p q : PixPoint) : ℤ := p.1 * q.2 - q.1 * p.2

/-- Shoelace sum over consecutive pairs, wrapping back to `pfirst`. -/
def shoelaceAux (pfirst : PixPoint) : List PixPoint → ℤ
  | [] => 0
  | [p] => cross p pfirst
  | p :: q :: rest => cross p q + shoelaceAux pfirst (q :: rest)

/-- Signed doubled polygon area of a closed pixel polygon. -/
def shoelace : Contour → ℤ
  | [] => 0
  | p :: rest => shoelaceAux p (p :: rest)

/-- Modelled from the spec: `cv2.contourArea` is an external library call
computing the enclosed area by Green's formula and returning its absolute
value; modelled as the absolute value of the signed polygon-area (shoelace)
formula on the pixel coordinate sequence, halved. -/
def contourArea (c : Contour) : ℚ := ((shoelace c).natAbs : ℚ) / 2

/-- The comparison used by `sorted(contours, key=cv2.contourArea,
reverse=True)`: `a` may come before `b` when its area is at least `b`'s. -/
abbrev areaGe (a b : Contour) : Prop := contourArea b ≤ contourArea a

instance : DecidableRel areaGe := fun a b =>
  inferInstanceAs (Decidable (contourArea b ≤ contourArea a))

instance : IsTotal Contour areaGe :=
  ⟨fun a b => le_total (contourArea b) (contourArea a)⟩

instance : IsTrans Contour areaGe :=
  ⟨fun _ _ _ h1 h2 => le_trans h2 h1⟩

/-- `extract_contours`: discovers contours and sorts them by area, largest
first.  Python's `sorted` is a stable sort; with `reverse=True` equal keys
keep their original order, which is exactly `insertionSort` with `areaGe`. -/
def extract_contours (em : EdgeMap) : List Contour :=
  List.insertionSort areaGe (findContours em)

/-! ### Coordinate scaling (`scale_coordinates`) -/

/-- The per-point transform of `scale_coordinates`:
`tx = (x - w/2) * scale`, `ty = (h/2 - y) * scale`. -/
def scalePoint (w h : ℕ) (scale x y : ℚ) : ℚ × ℚ :=
  ((x - (w : ℚ) / 2) * scale, ((h : ℚ) / 2 - y) * scale)

/-- The transform applied to a pixel point, with
`scale = canvas_size / max(h, w)`. -/
def transformPoint (h w : ℕ) (canvas_size : ℚ) (p : PixPoint) : Point :=
  scalePoint w h (canvas_size / (max h w : ℚ)) (p.1 : ℚ) (p.2 : ℚ)

/-- `scale_coordinates`: computes `scale = canvas_size / max(h, w)` (a
`ZeroDivisionError` when `max h w = 0`) and maps every point of every
contour through the centre-origin, y-flipped transform. -/
def scale_coordinates (contours : List Contour) (h w : ℕ) (canvas_size : ℚ) :
    Except String (List ScaledContour) :=
  if max h w = 0 then Except.error msgZeroDiv
  else Except.ok (contours.map fun c => c.map (transformPoint h w canvas_size))

/-! ### The turtle tool as an explicit state machine -/

/-- Observable state of the turtle "tool": position, pen flag, colour, and
the log of pen-down segments drawn so far. -/
@[ext]
structure ToolState where
  pos : Point
  penDown : Bool
  color : String
  segments : List (Point × Point)
deriving DecidableEq

def penup (s : ToolState) : ToolState := { s with penDown := false }

def pendown (s : ToolState) : ToolState := { s with penDown := true }

def setColor (c : String) (s : ToolState) : ToolState := { s with color := c }

/-- `tool.goto p`: moves to `p`, logging a segment when the pen is down. -/
def goto (p : Point) (s : ToolState) : ToolState :=
  { s with
      pos := p
      segments := if s.penDown then s.segments ++ [(s.pos, p)] else s.segments }

def initState : ToolState := ⟨((0 : ℚ), (0 : ℚ)), false, colorRed, []⟩

/-- Status messages written by `update_status`, abstracted structurally. -/
inductive Status where
  | loading : Status
  | extracting : Status
  | drawingStart : Status
  | progress : ℕ → ℕ → Status
  | complete : ℕ → Status
  | done : Status
  | error : String → Status
deriving DecidableEq

/-! ### `draw_toolpath` -/

/-- Drawing one contour with first point `p` and remaining points `t`:
pen up, go to `p`, pen down, colour blue, visit every remaining point, then
close the loop by returning to `p`. -/
def drawContour (p : Point) (t : List Point) (s : ToolState) : ToolState :=
  goto p (t.foldl (fun st q => goto q st)
    (setColor colorBlue (pendown (goto p (penup s)))))

/-- Result of the drawing loop: final tool state, the progress statuses
emitted, the number of contours drawn, and the polylines actually drawn
(the emitted toolpath). -/
structure LoopOut where
  state : ToolState
  statuses : List Status
  drawn : ℕ
  toolpath : List ScaledContour
deriving DecidableEq

/-- The `for i, contour in enumerate(contours)` loop of `draw_toolpath`:
contours with fewer than `m` points are skipped; an empty contour that is
not skipped raises `IndexError` at `contour[0]`; after each drawn contour a
progress status is emitted when the running drawn count is a multiple
of 5. -/
def drawLoop (m tot : ℕ) :
    List ScaledContour → ℕ → ℕ → ToolState → Except String LoopOut
  | [], _, drawn, s => Except.ok ⟨s, [], drawn, []⟩
  | c :: rest, i, drawn, s =>
    if c.length < m then drawLoop m tot rest (i + 1) drawn s
    else
      match c with
      | [] => Except.error msgIndex
      | p :: t =>
        (drawLoop m tot rest (i + 1) (drawn + 1) (drawContour p t s)).map fun u =>
          ⟨u.state,
            (if (drawn + 1) % 5 = 0 then [Status.progress (i + 1) tot] else [])
              ++ u.statuses,
            u.drawn, c :: u.toolpath⟩

/-- The final `penup; goto(0, 0); color red` of `draw_toolpath`. -/
def goHome (s : ToolState) : ToolState :=
  setColor colorRed (goto ((0 : ℚ), (0 : ℚ)) (penup s))

/-- Result of `draw_toolpath`, as observed by the emission boundary. -/
structure DrawResult where
  state : ToolState
  statuses : List Status
  drawn : ℕ
  toolpath : List ScaledContour
deriving DecidableEq

/-- `draw_toolpath contours min_points`: runs the drawing loop over the
scaled contours, then returns the tool to the origin and reports the number
of toolpaths drawn. -/
def draw_toolpath (cs : List ScaledContour) (m : ℕ) (s : ToolState) :
    Except String DrawResult :=
  (drawLoop m cs.length cs 0 0 s).map fun u =>
    ⟨goHome u.state,
      Status.drawingStart :: u.statuses ++ [Status.complete u.drawn],
      u.drawn, u.toolpath⟩

/-! ### `generate_from_image` -/

/-- Result of `generate_from_image`: the statuses displayed, and the draw
result when the pipeline ran to completion.  The `try/except` of the source
catches every exception and reports it as a status, so the function always
returns normally. -/
structure GenResult where
  statuses : List Status
  result : Option DrawResult
deriving DecidableEq

/-- `generate_from_image`: edge detection (thresholds 50/150), contour
extraction, scaling to the canvas, drawing with `min_points = 10`; any
exception raised by a stage is caught and reported as an error status. -/
def generate_from_image (imgOpt : Option Img) (canvas : ℚ) (s : ToolState) :
    GenResult :=
  match edge_detection imgOpt 50 150 with
  | Except.error e => ⟨[Status.loading, Status.error e], none⟩
  | Except.ok (em, h, w) =>
    match scale_coordinates (extract_contours em) h w canvas with
    | Except.error e => ⟨[Status.loading, Status.extracting, Status.error e], none⟩
    | Except.ok scaled =>
      match draw_toolpath scaled 10 s with
      | Except.error e =>
        ⟨[Status.loading, Status.extracting, Status.error e], none⟩
      | Except.ok r =>
        ⟨Status.loading :: Status.extracting :: r.statuses ++ [Status.done],
          some r⟩

/-! ### Claims about the coordinate mapper -/

/-- Claim C1: for every contour point `(x, y)`, with image height `h`, width
`w`, and `scale = canvas_size / max(h, w)`, `scale_coordinates` outputs
exactly `((x - w/2) * scale, (h/2 - y) * scale)`; in particular the image
centre `(w/2, h/2)` maps to `(0, 0)` and the corner `(0, 0)` maps to
`(-w/2 * scale, h/2 * scale)`. -/
theorem scale_coordinates_formula (h w : ℕ) (canvas : ℚ) (hpos : 0 < max h w)
    (cs : List Contour) :
    scale_coordinates cs h w canvas =
      Except.ok (cs.map fun c => c.map (transformPoint h w canvas))
    ∧ (∀ scale x y : ℚ, scalePoint w h scale x y =
        ((x - (w : ℚ) / 2) * scale, ((h : ℚ) / 2 - y) * scale))
    ∧ (∀ scale : ℚ, scalePoint w h scale ((w : ℚ) / 2) ((h : ℚ) / 2) = (0, 0))
    ∧ (∀ scale : ℚ, scalePoint w h scale 0 0 =
        (-((w : ℚ) / 2) * scale, ((h : ℚ) / 2) * scale)) := by
  refine ⟨?_, fun scale x y => rfl, fun scale => ?_, fun scale => ?_⟩
  · simp [scale_coordinates, Nat.pos_iff_ne_zero.mp hpos]
  · simp [scalePoint]
  · simp [scalePoint, neg_mul]

theorem scale_coordinates_formula_witness :
    0 < max 4 6 ∧
      (scale_coordinates [[((1 : ℤ), (2 : ℤ))]] 4 6 600 =
        Except.ok ([[((1 : ℤ), (2 : ℤ))]].map fun c => c.map (transformPoint 4 6 600))
      ∧ (∀ scale x y : ℚ, scalePoint 6 4 scale x y =
          ((x - (6 : ℚ) / 2) * scale, ((4 : ℚ) / 2 - y) * scale))
      ∧ (∀ scale : ℚ, scalePoint 6 4 scale ((6 : ℚ) / 2) ((4 : ℚ) / 2) = (0, 0))
      ∧ (∀ scale : ℚ, scalePoint 6 4 scale 0 0 =
          (-((6 : ℚ) / 2) * scale, ((4 : ℚ) / 2) * scale))) :=
  ⟨by decide, scale_coordinates_formula 4 6 600 (by decide) [[((1 : ℤ), (2 : ℤ))]]⟩

/-- Claim C4: `scale_coordinates` returns one scaled contour per input
contour in the same order, every scaled contour being the point-wise image
of its source, so in particular point counts are preserved. -/
theorem scale_preserves_structure (cs : List Contour) (h w : ℕ) (canvas : ℚ)
    (hpos : 0 < max h w) :
    ∃ out, scale_coordinates cs h w canvas = Except.ok out ∧
      out.length = cs.length ∧
      (∀ i : ℕ, out[i]? = (cs[i]?).map fun c => c.map (transformPoint h w canvas)) ∧
      ∀ i : ℕ, out[i]?.map List.length = cs[i]?.map List.length := by
  refine ⟨cs.map fun c => c.map (transformPoint h w canvas), ?_, ?_, ?_, ?_⟩
  · simp [scale_coordinates, Nat.pos_iff_ne_zero.mp hpos]
  · simp
  · intro i
    simp [List.getElem?_map]
  · intro i
    cases hi : cs[i]? <;> simp [List.getElem?_map, hi]

theorem scale_preserves_structure_witness :
    0 < max 3 3 ∧
      ∃ out, scale_coordinates [[((0 : ℤ), (0 : ℤ)), ((2 : ℤ), (1 : ℤ))]] 3 3 600
          = Except.ok out ∧
        out.length = [[((0 : ℤ), (0 : ℤ)), ((2 : ℤ), (1 : ℤ))]].length ∧
        (∀ i : ℕ, out[i]? =
          ([[((0 : ℤ), (0 : ℤ)), ((2 : ℤ), (1 : ℤ))]][i]?).map fun c =>
            c.map (transformPoint 3 3 600)) ∧
        ∀ i : ℕ, out[i]?.map List.length =
          [[((0 : ℤ), (0 : ℤ)), ((2 : ℤ), (1 : ℤ))]][i]?.map List.length :=
  ⟨by decide,
    scale_preserves_structure [[((0 : ℤ), (0 : ℤ)), ((2 : ℤ), (1 : ℤ))]] 3 3 600
      (by decide)⟩

/-- Claim C9: `scale_coordinates` divides `canvas_size` by `max(h, w)`
without a guard; whenever `max(h, w) > 0` the division is safe, the function
returns a value, and the division-by-zero error branch is unreachable. -/
theorem scale_division_safe (cs : List Contour) (h w : ℕ) (canvas : ℚ)
    (hpos : 0 < max h w) :
    (∃ out, scale_coordinates cs h w canvas = Except.ok out) ∧
      ∀ e, scale_coordinates cs h w canvas ≠ Except.error e := by
  have hne : max h w ≠ 0 := Nat.pos_iff_ne_zero.mp hpos
  constructor
  · exact ⟨cs.map fun c => c.map (transformPoint h w canvas),
      by simp [scale_coordinates, hne]⟩
  · intro e hcontra
    simp [scale_coordinates, hne] at hcontra

theorem scale_division_safe_witness :
    0 < max 100 100 ∧
      ((∃ out, scale_coordinates [] 100 100 600 = Except.ok out) ∧
        ∀ e, scale_coordinates [] 100 100 600 ≠ Except.error e) :=
  ⟨by decide, scale_division_safe [] 100 100 600 (by decide)⟩

/-! ### Claims about contour ordering -/

theorem filter_orderedInsert_area (v : ℚ) (a : Contour) : ∀ l : List Contour,
    (l.orderedInsert areaGe a).filter (fun c => decide (contourArea c = v)) =
      if contourArea a = v then
        a :: l.filter fun c => decide (contourArea c = v)
      else l.filter fun c => decide (contourArea c = v) := by
  intro l
  induction l with
  | nil =>
    by_cases h : contourArea a = v <;> simp [List.orderedInsert, h]
  | cons b l ih =>
    simp only [List.orderedInsert]
    by_cases hab : areaGe a b
    · rw [if_pos hab]
      by_cases ha : contourArea a = v <;> by_cases hb : contourArea b = v <;>
        simp [List.filter_cons, ha, hb]
    · rw [if_neg hab]
      have hlt : contourArea a < contourArea b := not_le.mp hab
      rw [List.filter_cons, List.filter_cons, ih]
      by_cases ha : contourArea a = v
      · have hb : contourArea b ≠ v := by rw [← ha]; exact ne_of_gt hlt
        simp [ha, hb]
      · by_cases hb : contourArea b = v <;> simp [ha, hb]

theorem filter_insertionSort_area (v : ℚ) : ∀ l : List Contour,
    (List.insertionSort areaGe l).filter (fun c => decide (contourArea c = v)) =
      l.filter fun c => decide (contourArea c = v) := by
  intro l
  induction l with
  | nil => rfl
  | cons a l ih =>
    rw [List.insertionSort, filter_orderedInsert_area, ih]
    by_cases ha : contourArea a = v <;> simp [ha]

/-- Claim C2: for every edge map, the contour sequence returned by
`extract_contours` is sorted in descending order of enclosed area (absolute
shoelace area of the pixel polygon): adjacent pairs satisfy
`area c[i] ≥ area c[i+1]`; the output is a permutation of the discovered
contours, and among contours of equal area the original discovery order is
kept (stable sort), stated as preservation of every equal-area fibre. -/
theorem extract_contours_area_sorted (em : EdgeMap) :
    List.Pairwise (fun a b => contourArea b ≤ contourArea a) (extract_contours em)
    ∧ (extract_contours em).Perm (findContours em)
    ∧ ∀ v : ℚ, (extract_contours em).filter (fun c => decide (contourArea c = v)) =
        (findContours em).filter fun c => decide (contourArea c = v) :=
  ⟨List.sorted_insertionSort areaGe (findContours em),
    List.perm_insertionSort areaGe (findContours em),
    fun v => filter_insertionSort_area v (findContours em)⟩

/-! ### Claims about the path filter  -/

theorem drawLoop_ok (m tot : ℕ) :
    ∀ cs : List ScaledContour,
      (1 ≤ m ∨ ∀ c ∈ cs, c ≠ ([] : ScaledContour)) →
      ∀ (i drawn : ℕ) (s : ToolState),
        ∃ u, drawLoop m tot cs i drawn s = Except.ok u ∧
          u.toolpath = cs.filter (fun c => decide (m ≤ c.length)) ∧
          u.drawn = drawn + (cs.countP fun c => decide (m ≤ c.length)) := by
  intro cs
  induction cs with
  | nil =>
    intro _ i drawn s
    exact ⟨⟨s, [], drawn, []⟩, rfl, by simp, by simp⟩
  | cons c rest ih =>
    intro hsafe i drawn s
    have hrest : 1 ≤ m ∨ ∀ d ∈ rest, d ≠ ([] : ScaledContour) :=
      hsafe.imp id fun h d hd => h d (List.mem_cons_of_mem _ hd)
    by_cases hc : c.length < m
    · have hcle : ¬ m ≤ c.length := not_le.mpr hc
      obtain ⟨u, hu, ht, hd⟩ := ih hrest (i + 1) drawn s
      refine ⟨u, ?_, ?_, ?_⟩
      · simpa [drawLoop, hc] using hu
      · simp [List.filter_cons, hcle, ht]
      · simp [List.countP_cons, hcle, hd]
    · have hle : m ≤ c.length := not_lt.mp hc
      have hne : c ≠ [] := by
        rcases hsafe with hm | hall
        · intro h0
          rw [h0] at hle
          simp at hle
          omega
        · exact hall c (List.mem_cons_self c rest)
      obtain ⟨p, t, rfl⟩ := List.exists_cons_of_ne_nil hne
      obtain ⟨u, hu, ht, hd⟩ := ih hrest (i + 1) (drawn + 1) (drawContour p t s)
      have hle' : m ≤ t.length + 1 := by simpa using hle
      refine ⟨⟨u.state,
          (if (drawn + 1) % 5 = 0 then [Status.progress (i + 1) tot] else [])
            ++ u.statuses, u.drawn, (p :: t) :: u.toolpath⟩, ?_, ?_, ?_⟩
      · have heq : drawLoop m tot ((p :: t) :: rest) i drawn s
            = (drawLoop m tot rest (i + 1) (drawn + 1) (drawContour p t s)).map
              fun u => ⟨u.state,
                (if (drawn + 1) % 5 = 0
                  then [Status.progress (i + 1) tot] else []) ++ u.statuses,
                u.drawn, (p :: t) :: u.toolpath⟩ := by
          simp only [drawLoop]
          rw [if_neg hc]
        rw [heq, hu]
        rfl
      · simp [List.filter_cons, hle', ht]
      · rw [hd]
        simp [List.countP_cons, hle']
        omega

/-- Claim C3 counterexample: with `min_points = 0`, the empty contour passes
the point-count test (`0 ≤ 0`), yet `draw_toolpath` raises `IndexError` at
`contour[0]` instead of retaining it, so no emitted toolpath exists at all
for this input. -/
theorem draw_filter_counterexample :
    0 ≤ ([] : ScaledContour).length ∧
      draw_toolpath [([] : ScaledContour)] 0 initState = Except.error msgIndex ∧
      ∀ r, draw_toolpath [([] : ScaledContour)] 0 initState ≠ Except.ok r := by
  refine ⟨Nat.zero_le _, rfl, fun r h => ?_⟩
  rw [show draw_toolpath [([] : ScaledContour)] 0 initState
      = Except.error msgIndex from rfl] at h
  exact Except.noConfusion h

/-- Claim C3 (amended): for every list of scaled contours and every
`min_points ≥ 1` — or any `min_points` when no contour is empty; the default
10 qualifies — `draw_toolpath` succeeds and the emitted toolpath is exactly
the input filtered to contours of at least `min_points` points: retained iff
the point count reaches the bound, each retained entry appearing with its
input multiplicity, input order preserved; with `min_points = 1000` and all
contours shorter than 1000 points the toolpath is empty.  (With
`min_points = 0` an empty contour raises `IndexError` instead of being
retained.) -/
theorem draw_toolpath_filter_amended (cs : List ScaledContour) (m : ℕ)
    (s : ToolState) (hsafe : 1 ≤ m ∨ ∀ c ∈ cs, c ≠ ([] : ScaledContour)) :
    ∃ r, draw_toolpath cs m s = Except.ok r ∧
      r.toolpath = cs.filter (fun c => decide (m ≤ c.length)) ∧
      (∀ c, c ∈ r.toolpath ↔ c ∈ cs ∧ m ≤ c.length) ∧
      (∀ c, m ≤ c.length → r.toolpath.count c = cs.count c) ∧
      (m = 1000 → (∀ c ∈ cs, c.length < 1000) → r.toolpath = []) := by
  obtain ⟨u, hu, ht, _⟩ := drawLoop_ok m cs.length cs hsafe 0 0 s
  refine ⟨⟨goHome u.state,
      Status.drawingStart :: u.statuses ++ [Status.complete u.drawn],
      u.drawn, u.toolpath⟩, ?_, ht, ?_, ?_, ?_⟩
  · simp [draw_toolpath, hu, Except.map]
  · intro c
    rw [ht]
    simp [List.mem_filter]
  · intro c hc
    rw [ht]
    simp [List.count_filter, hc]
  · intro hm hall
    rw [ht]
    rw [List.filter_eq_nil_iff]
    intro c hc
    subst hm
    simpa using hall c hc

theorem draw_toolpath_filter_amended_witness :
    (1 ≤ 10 ∨ ∀ c ∈ [List.replicate 10 ((0 : ℚ), (0 : ℚ)),
        List.replicate 3 ((0 : ℚ), (0 : ℚ))], c ≠ ([] : ScaledContour)) ∧
      ∃ r, draw_toolpath [List.replicate 10 ((0 : ℚ), (0 : ℚ)),
          List.replicate 3 ((0 : ℚ), (0 : ℚ))] 10 initState = Except.ok r ∧
        r.toolpath = [List.replicate 10 ((0 : ℚ), (0 : ℚ)),
          List.replicate 3 ((0 : ℚ), (0 : ℚ))].filter
            (fun c => decide (10 ≤ c.length)) ∧
        (∀ c, c ∈ r.toolpath ↔ c ∈ [List.replicate 10 ((0 : ℚ), (0 : ℚ)),
          List.replicate 3 ((0 : ℚ), (0 : ℚ))] ∧ 10 ≤ c.length) ∧
        (∀ c, 10 ≤ c.length → r.toolpath.count c =
          [List.replicate 10 ((0 : ℚ), (0 : ℚ)),
            List.replicate 3 ((0 : ℚ), (0 : ℚ))].count c) ∧
        ((10 : ℕ) = 1000 → (∀ c ∈ [List.replicate 10 ((0 : ℚ), (0 : ℚ)),
          List.replicate 3 ((0 : ℚ), (0 : ℚ))], c.length < 1000) →
          r.toolpath = []) :=
  ⟨Or.inl (by decide),
    draw_toolpath_filter_amended _ 10 initState (Or.inl (by decide))⟩

/-! ### Claims about the drawn motion -/

/-- Consecutive segments of a polyline starting at `a` through `t`. -/
def pathSegs : Point → List Point → List (Point × Point)
  | _, [] => []
  | a, b :: r => (a, b) :: pathSegs b r

theorem pathSegs_map_snd : ∀ (a : Point) (t : List Point),
    (pathSegs a t).map Prod.snd = t := by
  intro a t
  induction t generalizing a with
  | nil => rfl
  | cons b r ih => simp [pathSegs, ih b]

/-- The last point of `t`, or `a` when `t` is empty. -/
def lastOr (a : Point) : List Point → Point
  | [] => a
  | b :: r => lastOr b r

theorem pathSegs_append_last (b : Point) : ∀ (a : Point) (t : List Point),
    pathSegs a (t ++ [b]) = pathSegs a t ++ [(lastOr a t, b)] := by
  intro a t
  induction t generalizing a with
  | nil => simp [pathSegs, lastOr]
  | cons c r ih => simp [pathSegs, ih c, lastOr]

theorem foldl_goto (t : List Point) : ∀ s : ToolState, s.penDown = true →
    t.foldl (fun st q => goto q st) s =
      ⟨lastOr s.pos t, true, s.color, s.segments ++ pathSegs s.pos t⟩ := by
  induction t with
  | nil =>
    intro s hs
    cases s
    simp_all [pathSegs, lastOr]
  | cons b r ih =>
    intro s hs
    rw [List.foldl_cons, ih (goto b s) (by simp [goto, hs])]
    simp [goto, hs, pathSegs, lastOr]

theorem drawContour_eq (p : Point) (t : List Point) (s : ToolState) :
    drawContour p t s = ⟨p, true, colorBlue, s.segments ++ pathSegs p (t ++ [p])⟩ := by
  unfold drawContour
  rw [foldl_goto t (setColor colorBlue (pendown (goto p (penup s)))) rfl]
  simp [goto, penup, pendown, setColor, pathSegs_append_last]

/-- Claim C10: every polyline that passes the `min_points` filter is emitted
as a closed loop: the pen-down motion visits the remaining points in order
and then returns to the polyline's first point, with no assumption that the
first and last points coincide. -/
theorem drawn_contour_closed (p : Point) (t : List Point) (m : ℕ)
    (s : ToolState) (hlen : m ≤ (p :: t).length)
    (hseg : s.segments = []) :
    ∃ r, draw_toolpath [p :: t] m s = Except.ok r ∧
      r.state.segments = pathSegs p (t ++ [p]) ∧
      (r.state.segments).map Prod.snd = t ++ [p] ∧
      ((r.state.segments).map Prod.snd).getLast? = some p := by
  have hc : ¬ ((p :: t).length < m) := not_lt.mpr hlen
  have heq : drawLoop m 1 [p :: t] 0 0 s
      = Except.ok ⟨drawContour p t s, [], 1, [p :: t]⟩ := by
    simp only [drawLoop]
    rw [if_neg hc]
    rfl
  refine ⟨⟨goHome (drawContour p t s),
      [Status.drawingStart, Status.complete 1], 1, [p :: t]⟩, ?_, ?_, ?_, ?_⟩
  · simp [draw_toolpath, heq, Except.map]
  · simp [goHome, goto, penup, setColor, drawContour_eq, hseg]
  · simp [goHome, goto, penup, setColor, drawContour_eq, hseg, pathSegs_map_snd]
  · simp [goHome, goto, penup, setColor, drawContour_eq, hseg, pathSegs_map_snd]

theorem drawn_contour_closed_witness :
    10 ≤ (((3 : ℚ), (4 : ℚ)) :: List.replicate 9 ((1 : ℚ), (1 : ℚ))).length ∧
      initState.segments = [] ∧
      ∃ r, draw_toolpath [((3 : ℚ), (4 : ℚ)) :: List.replicate 9 ((1 : ℚ), (1 : ℚ))]
          10 initState = Except.ok r ∧
        r.state.segments =
          pathSegs ((3 : ℚ), (4 : ℚ)) (List.replicate 9 ((1 : ℚ), (1 : ℚ)) ++ [((3 : ℚ), (4 : ℚ))]) ∧
        (r.state.segments).map Prod.snd =
          List.replicate 9 ((1 : ℚ), (1 : ℚ)) ++ [((3 : ℚ), (4 : ℚ))] ∧
        ((r.state.segments).map Prod.snd).getLast? = some ((3 : ℚ), (4 : ℚ)) :=
  ⟨by decide, rfl,
    drawn_contour_closed ((3 : ℚ), (4 : ℚ)) (List.replicate 9 ((1 : ℚ), (1 : ℚ)))
      10 initState (by decide) rfl⟩

/-! ### Determinism / state-independence of the pipeline -/

theorem goHome_congr {s1 s2 : ToolState} (h : s1.segments = s2.segments) :
    goHome s1 = goHome s2 := by
  simp [goHome, goto, penup, setColor, h]

theorem drawContour_congr (p : Point) (t : List Point) {s1 s2 : ToolState}
    (h : s1.segments = s2.segments) :
    drawContour p t s1 = drawContour p t s2 := by
  rw [drawContour_eq, drawContour_eq, h]

/-- Normalising the loop output state by the final return-to-origin. -/
def finalLoop (u : LoopOut) : LoopOut :=
  ⟨goHome u.state, u.statuses, u.drawn, u.toolpath⟩

theorem drawLoop_congr (m tot : ℕ) : ∀ (cs : List ScaledContour) (i drawn : ℕ)
    (s1 s2 : ToolState), s1.segments = s2.segments →
    (drawLoop m tot cs i drawn s1).map finalLoop
      = (drawLoop m tot cs i drawn s2).map finalLoop := by
  intro cs
  induction cs with
  | nil =>
    intro i drawn s1 s2 h
    simp [drawLoop, finalLoop, Except.map, goHome_congr h]
  | cons c rest ih =>
    intro i drawn s1 s2 h
    by_cases hc : c.length < m
    · have e1 : drawLoop m tot (c :: rest) i drawn s1
          = drawLoop m tot rest (i + 1) drawn s1 := by
        simp only [drawLoop]
        rw [if_pos hc]
      have e2 : drawLoop m tot (c :: rest) i drawn s2
          = drawLoop m tot rest (i + 1) drawn s2 := by
        simp only [drawLoop]
        rw [if_pos hc]
      rw [e1, e2]
      exact ih (i + 1) drawn s1 s2 h
    · cases c with
      | nil =>
        have e1 : drawLoop m tot ([] :: rest) i drawn s1 = Except.error msgIndex := by
          simp only [drawLoop]
          rw [if_neg hc]
        have e2 : drawLoop m tot ([] :: rest) i drawn s2 = Except.error msgIndex := by
          simp only [drawLoop]
          rw [if_neg hc]
        rw [e1, e2]
      | cons p t =>
        have e1 : drawLoop m tot ((p :: t) :: rest) i drawn s1
            = (drawLoop m tot rest (i + 1) (drawn + 1) (drawContour p t s1)).map
              fun u => ⟨u.state,
                (if (drawn + 1) % 5 = 0
                  then [Status.progress (i + 1) tot] else []) ++ u.statuses,
                u.drawn, (p :: t) :: u.toolpath⟩ := by
          simp only [drawLoop]
          rw [if_neg hc]
        have e2 : drawLoop m tot ((p :: t) :: rest) i drawn s2
            = (drawLoop m tot rest (i + 1) (drawn + 1) (drawContour p t s2)).map
              fun u => ⟨u.state,
                (if (drawn + 1) % 5 = 0
                  then [Status.progress (i + 1) tot] else []) ++ u.statuses,
                u.drawn, (p :: t) :: u.toolpath⟩ := by
          simp only [drawLoop]
          rw [if_neg hc]
        rw [e1, e2, drawContour_congr p t h]

theorem draw_toolpath_congr (cs : List ScaledContour) (m : ℕ)
    {s1 s2 : ToolState} (h : s1.segments = s2.segments) :
    draw_toolpath cs m s1 = draw_toolpath cs m s2 := by
  have hl := drawLoop_congr m cs.length cs 0 0 s1 s2 h
  unfold draw_toolpath
  cases e1 : drawLoop m cs.length cs 0 0 s1 with
  | error a =>
    cases e2 : drawLoop m cs.length cs 0 0 s2 with
    | error b =>
      rw [e1, e2] at hl
      simp only [Except.map] at hl ⊢
      exact congrArg Except.error (Except.error.injEq _ _ ▸ hl)
    | ok u =>
      rw [e1, e2] at hl
      simp [Except.map] at hl
  | ok u1 =>
    cases e2 : drawLoop m cs.length cs 0 0 s2 with
    | error b =>
      rw [e1, e2] at hl
      simp [Except.map] at hl
    | ok u2 =>
      rw [e1, e2] at hl
      simp only [Except.map] at hl ⊢
      have hfl : finalLoop u1 = finalLoop u2 := by
        exact Except.ok.inj hl
      simp only [finalLoop, LoopOut.mk.injEq] at hfl
      obtain ⟨h1, h2, h3, h4⟩ := hfl
      rw [h1, h2, h3, h4]

/-- Claim C7: for a fixed input image and fixed configuration, the pipeline
is a deterministic function of its inputs: its whole observable result
(statuses, drawn toolpath, final tool state) does not depend on the ambient
tool state two runs start from, provided both start with the same (normally
empty) segment log — there is no randomness and no unordered iteration. -/
theorem pipeline_deterministic (imgOpt : Option Img) (canvas : ℚ)
    (s1 s2 : ToolState) (h : s1.segments = s2.segments) :
    generate_from_image imgOpt canvas s1 = generate_from_image imgOpt canvas s2 := by
  cases hE : edge_detection imgOpt 50 150 with
  | error e => simp [generate_from_image, hE]
  | ok trip =>
    obtain ⟨em, hh, ww⟩ := trip
    cases hS : scale_coordinates (extract_contours em) hh ww canvas with
    | error e => simp [generate_from_image, hE, hS]
    | ok scaled =>
      simp only [generate_from_image, hE, hS]
      rw [draw_toolpath_congr scaled 10 h]

theorem pipeline_deterministic_witness :
    (ToolState.segments ⟨((0 : ℚ), (0 : ℚ)), false, colorRed, []⟩
        = ToolState.segments ⟨((5 : ℚ), (7 : ℚ)), true, colorBlue, []⟩) ∧
      generate_from_image (some [[9, 9], [9, 9]]) 600
          ⟨((0 : ℚ), (0 : ℚ)), false, colorRed, []⟩
        = generate_from_image (some [[9, 9], [9, 9]]) 600
          ⟨((5 : ℚ), (7 : ℚ)), true, colorBlue, []⟩ :=
  ⟨rfl, pipeline_deterministic (some [[9, 9], [9, 9]]) 600 _ _ rfl⟩

/-! ### Status reporting of the drawing loop -/

theorem drawLoop_drawn_le (m tot : ℕ) : ∀ (cs : List ScaledContour)
    (i drawn : ℕ) (s : ToolState) (u : LoopOut),
    drawLoop m tot cs i drawn s = Except.ok u → drawn ≤ u.drawn := by
  intro cs
  induction cs with
  | nil =>
    intro i drawn s u hu
    simp only [drawLoop] at hu
    cases hu
    exact le_refl _
  | cons c rest ih =>
    intro i drawn s u hu
    by_cases hc : c.length < m
    · have e : drawLoop m tot (c :: rest) i drawn s
          = drawLoop m tot rest (i + 1) drawn s := by
        simp only [drawLoop]
        rw [if_pos hc]
      rw [e] at hu
      exact ih (i + 1) drawn s u hu
    · cases c with
      | nil =>
        have e : drawLoop m tot ([] :: rest) i drawn s = Except.error msgIndex := by
          simp only [drawLoop]
          rw [if_neg hc]
        rw [e] at hu
        exact Except.noConfusion hu
      | cons p t =>
        have e : drawLoop m tot ((p :: t) :: rest) i drawn s
            = (drawLoop m tot rest (i + 1) (drawn + 1) (drawContour p t s)).map
              fun u => ⟨u.state,
                (if (drawn + 1) % 5 = 0
                  then [Status.progress (i + 1) tot] else []) ++ u.statuses,
                u.drawn, (p :: t) :: u.toolpath⟩ := by
          simp only [drawLoop]
          rw [if_neg hc]
        rw [e] at hu
        cases hX : drawLoop m tot rest (i + 1) (drawn + 1) (drawContour p t s) with
        | error a =>
          rw [hX] at hu
          exact Except.noConfusion hu
        | ok u' =>
          rw [hX] at hu
          simp only [Except.map] at hu
          cases hu
          exact Nat.le_of_succ_le (ih (i + 1) (drawn + 1) (drawContour p t s) u' hX)

theorem drawLoop_statuses (m tot : ℕ) : ∀ (cs : List ScaledContour)
    (i drawn : ℕ) (s : ToolState) (u : LoopOut),
    drawLoop m tot cs i drawn s = Except.ok u →
    ∀ st ∈ u.statuses, ∃ j k, st = Status.progress j tot ∧
      drawn < k ∧ k ≤ u.drawn ∧ k % 5 = 0 := by
  intro cs
  induction cs with
  | nil =>
    intro i drawn s u hu st hst
    simp only [drawLoop] at hu
    cases hu
    simp at hst
  | cons c rest ih =>
    intro i drawn s u hu st hst
    by_cases hc : c.length < m
    · have e : drawLoop m tot (c :: rest) i drawn s
          = drawLoop m tot rest (i + 1) drawn s := by
        simp only [drawLoop]
        rw [if_pos hc]
      rw [e] at hu
      exact ih (i + 1) drawn s u hu st hst
    · cases c with
      | nil =>
        have e : drawLoop m tot ([] :: rest) i drawn s = Except.error msgIndex := by
          simp only [drawLoop]
          rw [if_neg hc]
        rw [e] at hu
        exact Except.noConfusion hu
      | cons p t =>
        have e : drawLoop m tot ((p :: t) :: rest) i drawn s
            = (drawLoop m tot rest (i + 1) (drawn + 1) (drawContour p t s)).map
              fun u => ⟨u.state,
                (if (drawn + 1) % 5 = 0
                  then [Status.progress (i + 1) tot] else []) ++ u.statuses,
                u.drawn, (p :: t) :: u.toolpath⟩ := by
          simp only [drawLoop]
          rw [if_neg hc]
        rw [e] at hu
        cases hX : drawLoop m tot rest (i + 1) (drawn + 1) (drawContour p t s) with
        | error a =>
          rw [hX] at hu
          exact Except.noConfusion hu
        | ok u' =>
          rw [hX] at hu
          simp only [Except.map] at hu
          have hmono : drawn + 1 ≤ u'.drawn :=
            drawLoop_drawn_le m tot rest (i + 1) (drawn + 1) (drawContour p t s) u' hX
          cases hu
          rcases List.mem_append.mp hst with h1 | h2
          · by_cases h5 : (drawn + 1) % 5 = 0
            · rw [if_pos h5] at h1
              rcases List.mem_singleton.mp h1 with rfl
              exact ⟨i + 1, drawn + 1, rfl, Nat.lt_succ_self drawn, hmono, h5⟩
            · rw [if_neg h5] at h1
              simp at h1
          · obtain ⟨j, k, hst, hk1, hk2, hk3⟩ :=
              ih (i + 1) (drawn + 1) (drawContour p t s) u' hX st h2
            exact ⟨j, k, hst, Nat.lt_of_succ_lt hk1, hk2, hk3⟩

/-- Claim C8 counterexample: one scaled contour of 10 points with the
default `min_points = 10`.  One contour is drawn and the completion status
carries the drawn count, but no status carries the total number of contours
considered: the progress status — the only message mentioning the total —
is only written when the running drawn count is a multiple of 5, which never
happens here.  The output therefore does not carry both counts for every
input. -/
theorem total_count_not_carried_counterexample :
    ∃ r, draw_toolpath [List.replicate 10 ((2 : ℚ), (2 : ℚ))] 10 initState
        = Except.ok r ∧
      r.drawn = 1 ∧ Status.complete 1 ∈ r.statuses ∧
      ∀ j tot, Status.progress j tot ∉ r.statuses := by
  obtain ⟨u, hu, ht, hd⟩ := drawLoop_ok 10 1 [List.replicate 10 ((2 : ℚ), (2 : ℚ))]
    (Or.inl (by decide)) 0 0 initState
  have hdrawn : u.drawn = 1 := by
    rw [hd]
    simp
  refine ⟨⟨goHome u.state,
      Status.drawingStart :: u.statuses ++ [Status.complete u.drawn],
      u.drawn, u.toolpath⟩, ?_, hdrawn, ?_, ?_⟩
  · have e : draw_toolpath [List.replicate 10 ((2 : ℚ), (2 : ℚ))] 10 initState
        = (drawLoop 10 1 [List.replicate 10 ((2 : ℚ), (2 : ℚ))] 0 0 initState).map
          fun u => ⟨goHome u.state,
            Status.drawingStart :: u.statuses ++ [Status.complete u.drawn],
            u.drawn, u.toolpath⟩ := rfl
    rw [e, hu]
    rfl
  · rw [hdrawn]
    simp
  · intro j tot hmem
    simp only [List.mem_cons, List.mem_append, List.mem_singleton] at hmem
    rcases hmem with (h0 | h1) | h2 | h3
    · exact Status.noConfusion h0
    · obtain ⟨j2, k, _, hk1, hk2, hk3⟩ :=
        drawLoop_statuses 10 1 [List.replicate 10 ((2 : ℚ), (2 : ℚ))] 0 0
          initState u hu _ h1
      rw [hdrawn] at hk2
      omega
    · exact Status.noConfusion h2
    · exact absurd h3 (List.not_mem_nil _)

/-- Claim C8 (amended): the output handed to the emission boundary always
carries the count of contours drawn (the completion status), but the total
number of contours considered is exposed only through progress statuses,
which reference the total and can appear only when the running drawn count
reaches a positive multiple of 5; when fewer than 5 contours are drawn the
total is never exposed. -/
theorem draw_status_counts_amended (cs : List ScaledContour) (m : ℕ)
    (s : ToolState) (hsafe : 1 ≤ m ∨ ∀ c ∈ cs, c ≠ ([] : ScaledContour)) :
    ∃ r, draw_toolpath cs m s = Except.ok r ∧
      Status.complete r.drawn ∈ r.statuses ∧
      (∀ j tot2, Status.progress j tot2 ∈ r.statuses → tot2 = cs.length) ∧
      (r.drawn < 5 → ∀ j tot2, Status.progress j tot2 ∉ r.statuses) := by
  obtain ⟨u, hu, _, _⟩ := drawLoop_ok m cs.length cs hsafe 0 0 s
  have e : draw_toolpath cs m s
      = (drawLoop m cs.length cs 0 0 s).map
        fun u => ⟨goHome u.state,
          Status.drawingStart :: u.statuses ++ [Status.complete u.drawn],
          u.drawn, u.toolpath⟩ := rfl
  refine ⟨⟨goHome u.state,
      Status.drawingStart :: u.statuses ++ [Status.complete u.drawn],
      u.drawn, u.toolpath⟩, ?_, ?_, ?_, ?_⟩
  · rw [e, hu]
    rfl
  · simp
  · intro j tot2 hmem
    simp only [List.mem_cons, List.mem_append, List.mem_singleton] at hmem
    rcases hmem with (h0 | h1) | h2 | h3
    · exact Status.noConfusion h0
    · obtain ⟨j2, k, hst, _, _, _⟩ :=
        drawLoop_statuses m cs.length cs 0 0 s u hu _ h1
      cases hst
      rfl
    · exact Status.noConfusion h2
    · exact absurd h3 (List.not_mem_nil _)
  · intro hlt j tot2 hmem
    have hlt2 : u.drawn < 5 := hlt
    simp only [List.mem_cons, List.mem_append, List.mem_singleton] at hmem
    rcases hmem with (h0 | h1) | h2 | h3
    · exact Status.noConfusion h0
    · obtain ⟨j2, k, _, hk1, hk2, hk3⟩ :=
        drawLoop_statuses m cs.length cs 0 0 s u hu _ h1
      omega
    · exact Status.noConfusion h2
    · exact absurd h3 (List.not_mem_nil _)

theorem draw_status_counts_amended_witness :
    (1 ≤ 10 ∨ ∀ c ∈ ([] : List ScaledContour), c ≠ ([] : ScaledContour)) ∧
      ∃ r, draw_toolpath ([] : List ScaledContour) 10 initState = Except.ok r ∧
        Status.complete r.drawn ∈ r.statuses ∧
        (∀ j tot2, Status.progress j tot2 ∈ r.statuses →
          tot2 = ([] : List ScaledContour).length) ∧
        (r.drawn < 5 → ∀ j tot2, Status.progress j tot2 ∉ r.statuses) :=
  ⟨Or.inl (by decide),
    draw_status_counts_amended ([] : List ScaledContour) 10 initState
      (Or.inl (by decide))⟩

/-! ### Error handling and the edge-free scenario -/

/-- An edge map with no edge pixels at all. -/
def allZero (em : EdgeMap) : Prop := ∀ row ∈ em, ∀ a ∈ row, a = 0

theorem getD_replicate {α : Type} (v d : α) :
    ∀ (n y : ℕ), (List.replicate n v).getD y d = if y < n then v else d := by
  intro n
  induction n with
  | zero => intro y; simp
  | succ n ih =>
    intro y
    cases y with
    | zero =>
      rw [List.replicate_succ, List.getD_cons_zero]
      simp
    | succ y =>
      rw [List.replicate_succ, List.getD_cons_succ, ih y]
      simp [Nat.succ_lt_succ_iff]

theorem pxD_replicate (h w v y x d : ℕ) :
    pxD (List.replicate h (List.replicate w v)) y x d
      = if y < h then (if x < w then v else d) else d := by
  unfold pxD
  by_cases hy : y < h
  · simp only [getD_replicate, if_pos hy]
  · simp only [getD_replicate, if_neg hy, List.getD_nil]

theorem gradHit_const (h w v t : ℕ) (ht : 0 < t) :
    ∀ y x : ℕ, gradHit (List.replicate h (List.replicate w v)) t y x = false := by
  intro y x
  have hne : ¬ (t ≤ 0) := by omega
  simp only [gradHit, pxD_replicate]
  by_cases hy : y < h <;> by_cases hx : x < w <;> by_cases hx1 : x + 1 < w <;>
    by_cases hy1 : y + 1 < h <;>
      simp [hy, hx, hx1, hy1, absDiff, hne] <;> omega

theorem isEdgePix_const (h w v t1 t2 : ℕ) (ht2 : 0 < t2) :
    ∀ y x : ℕ, isEdgePix (List.replicate h (List.replicate w v)) t1 t2 y x = false := by
  intro y x
  simp [isEdgePix, strongAt, neighbors, gradHit_const h w v t2 ht2]

theorem cannyModel_const (h w v t1 t2 : ℕ) (ht2 : 0 < t2) :
    allZero (cannyModel (List.replicate h (List.replicate w v)) t1 t2) := by
  intro row hrow a ha
  simp only [cannyModel, List.mem_map] at hrow
  obtain ⟨y, _, rfl⟩ := hrow
  simp only [List.mem_map] at ha
  obtain ⟨x, _, rfl⟩ := ha
  rw [isEdgePix_const h w v t1 t2 ht2]
  rfl

theorem rowPixels_nil (y : ℕ) : ∀ (n : ℕ) (row : List ℕ), (∀ a ∈ row, a = 0) →
    (row.enumFrom n).filterMap
      (fun q => if q.2 = 0 then none else some ((q.1 : ℤ), (y : ℤ))) = [] := by
  intro n row
  induction row generalizing n with
  | nil => intro _; rfl
  | cons a row ih =>
    intro hz
    have ha : a = 0 := hz a (List.mem_cons_self _ _)
    simp [List.enumFrom, ha,
      ih (n + 1) (fun b hb => hz b (List.mem_cons_of_mem _ hb))]

theorem edgePixels_nil_aux : ∀ (em : EdgeMap) (n : ℕ),
    (∀ row ∈ em, ∀ a ∈ row, a = 0) →
    ((em.enumFrom n).map fun r => rowPixels r.1 r.2).flatten = []
  | [], _, _ => rfl
  | row :: rest, n, hz => by
    have h1 : ∀ a ∈ row, a = 0 := hz row (List.mem_cons_self _ _)
    have h2 : ∀ r ∈ rest, ∀ a ∈ r, a = 0 :=
      fun r hr => hz r (List.mem_cons_of_mem _ hr)
    have hrow : rowPixels n row = [] := rowPixels_nil n 0 row h1
    simp [List.enumFrom, hrow, edgePixels_nil_aux rest (n + 1) h2]

theorem edgePixels_allZero (em : EdgeMap) (hz : allZero em) :
    edgePixels em = [] :=
  edgePixels_nil_aux em 0 hz

theorem findContours_allZero (em : EdgeMap) (hz : allZero em) :
    findContours em = [] := by
  unfold findContours
  rw [edgePixels_allZero em hz]
  rfl

/-- Claim C5 counterexample: a decoded image with zero dimensions (the empty
pixel grid) does NOT raise at the load step — `edge_detection` succeeds —
contradicting that the error is raised exactly when the image cannot be
loaded or has zero dimensions. -/
theorem zero_dim_image_loads_counterexample :
    edge_detection (some ([] : Img)) 50 150 = Except.ok ([], 0, 0) := rfl

/-- Claim C5 (amended): the load error (`ValueError`, the spec's
`InvalidImageError`) is raised iff `cv2.imread` fails to decode the image;
a decoded image with zero dimensions is not rejected at the load step and
instead reaches `scale_coordinates`, where a `ZeroDivisionError` is raised;
every error aborts the remaining stages but is caught inside
`generate_from_image` and reported as an error status rather than being
propagated to the pipeline's caller. -/
theorem error_handling_amended :
    (∀ (imgOpt : Option Img) (t1 t2 : ℕ),
      (∃ e, edge_detection imgOpt t1 t2 = Except.error e) ↔ imgOpt = none)
    ∧ (∀ (canvas : ℚ) (s : ToolState),
        generate_from_image none canvas s
          = ⟨[Status.loading, Status.error msgLoad], none⟩)
    ∧ (∀ (canvas : ℚ) (s : ToolState),
        generate_from_image (some ([] : Img)) canvas s
          = ⟨[Status.loading, Status.extracting, Status.error msgZeroDiv],
            none⟩) := by
  refine ⟨fun imgOpt t1 t2 => ?_, fun canvas s => rfl, fun canvas s => rfl⟩
  constructor
  · rintro ⟨e, he⟩
    cases imgOpt with
    | none => rfl
    | some img => simp [edge_detection] at he
  · rintro rfl
    exact ⟨msgLoad, rfl⟩

/-- Claim C6: for every image that decodes successfully (with positive
extent) but yields an all-zero edge map, the contour tracer returns the
empty sequence, the final toolpath is empty, zero contours are drawn, no
pen-down motion is logged, and no error is raised — the pipeline completes
normally. -/
theorem allzero_edge_map_pipeline (img : Img) (canvas : ℚ) (s : ToolState)
    (hz : allZero (cannyModel img 50 150))
    (hpos : 0 < max img.length (img.headD []).length) :
    findContours (cannyModel img 50 150) = []
    ∧ extract_contours (cannyModel img 50 150) = []
    ∧ generate_from_image (some img) canvas s
        = ⟨[Status.loading, Status.extracting, Status.drawingStart,
            Status.complete 0, Status.done],
          some ⟨goHome s, [Status.drawingStart, Status.complete 0], 0, []⟩⟩
    ∧ (goHome s).segments = s.segments
    ∧ ∀ e, Status.error e ∉ (generate_from_image (some img) canvas s).statuses := by
  have hfc : findContours (cannyModel img 50 150) = [] :=
    findContours_allZero _ hz
  have hec : extract_contours (cannyModel img 50 150) = [] := by
    unfold extract_contours
    rw [hfc]
    rfl
  have hne : max img.length (img.headD []).length ≠ 0 :=
    Nat.pos_iff_ne_zero.mp hpos
  have hG : generate_from_image (some img) canvas s
      = ⟨[Status.loading, Status.extracting, Status.drawingStart,
          Status.complete 0, Status.done],
        some ⟨goHome s, [Status.drawingStart, Status.complete 0], 0, []⟩⟩ := by
    have hE : edge_detection (some img) 50 150
        = Except.ok (cannyModel img 50 150, img.length, (img.headD []).length) :=
      rfl
    have hS : scale_coordinates (extract_contours (cannyModel img 50 150))
        img.length (img.headD []).length canvas = Except.ok [] := by
      rw [hec]
      unfold scale_coordinates
      rw [if_neg hne]
      rfl
    have hD : draw_toolpath ([] : List ScaledContour) 10 s
        = Except.ok ⟨goHome s, [Status.drawingStart, Status.complete 0], 0, []⟩ :=
      rfl
    simp only [generate_from_image, hE, hS, hD]
    rfl
  refine ⟨hfc, hec, hG, ?_, ?_⟩
  · simp [goHome, goto, penup, setColor]
  · intro e
    rw [hG]
    simp

theorem allzero_edge_map_pipeline_witness :
    allZero (cannyModel (List.replicate 100 (List.replicate 100 255)) 50 150) ∧
      0 < max (List.replicate 100 (List.replicate 100 255)).length
        (((List.replicate 100 (List.replicate 100 255)).headD []).length) ∧
      (findContours (cannyModel (List.replicate 100 (List.replicate 100 255)) 50 150) = []
      ∧ extract_contours (cannyModel (List.replicate 100 (List.replicate 100 255)) 50 150) = []
      ∧ generate_from_image (some (List.replicate 100 (List.replicate 100 255)))
          600 initState
          = ⟨[Status.loading, Status.extracting, Status.drawingStart,
              Status.complete 0, Status.done],
            some ⟨goHome initState, [Status.drawingStart, Status.complete 0],
              0, []⟩⟩
      ∧ (goHome initState).segments = initState.segments
      ∧ ∀ e, Status.error e ∉ (generate_from_image
          (some (List.replicate 100 (List.replicate 100 255))) 600
          initState).statuses) :=
  ⟨cannyModel_const 100 100 255 50 150 (by decide),
    by
      rw [List.length_replicate]
      exact lt_of_lt_of_le (by norm_num) (le_max_left 100 _),
    allzero_edge_map_pipeline (List.replicate 100 (List.replicate 100 255))
      600 initState (cannyModel_const 100 100 255 50 150 (by decide))
      (by
        rw [List.length_replicate]
        exact lt_of_lt_of_le (by norm_num) (le_max_left 100 _))⟩

end CNC
